import Mathlib

/-!
# Verification of the hosting-dashboard data pipeline

Shallow embedding of the in-memory data-derivation pipeline of
`src/pages/index.js`: CSV decoding (`parseCSV`), metrics aggregation,
multi-predicate filtering, the guest/host compatibility matching engine,
and the incident ledger (add / merge / export).

Strings are modelled as `List Char` (`Str`); JavaScript records (plain
objects holding string fields) are modelled as association lists
(`Rec`) with insertion-order keys, where reading an absent field yields
the empty string (every read site in the source applies `|| ""` /
`?? ""`, so absent and empty are indistinguishable there).
-/

/-- Strings as lists of characters. -/
abbrev Str := List Char

/-- `String.prototype.toLowerCase`, restricted to the ASCII range that the
data uses (`Char.toLower` lowers exactly `A`-`Z`). -/
def lowerStr (s : Str) : Str := s.map Char.toLower

/-- Whitespace test used by `trim` (space, tab, CR, LF). -/
def wsChar (c : Char) : Bool := c.isWhitespace

/-- Remove leading whitespace. -/
def trimStart (s : Str) : Str := s.dropWhile wsChar

/-- Remove trailing whitespace. -/
def trimEnd (s : Str) : Str := (s.reverse.dropWhile wsChar).reverse

/-- `String.prototype.trim`. -/
def jsTrim (s : Str) : Str := trimEnd (trimStart s)

/-- `a || b` on JavaScript strings: the left operand unless it is empty
(falsy), in which case the right one. -/
def jsOr (a b : Str) : Str := if a.isEmpty then b else a

/-- `String.prototype.split` with a single-character separator: always
returns a nonempty list, `"" ↦ [""]`. -/
def splitChar (c : Char) : Str → List Str
  | [] => [[]]
  | a :: as =>
    match splitChar c as with
    | [] => [[a]]
    | b :: bs => if a == c then [] :: b :: bs else (a :: b) :: bs

/-- `Array.prototype.join` with a string separator. -/
def joinStr (sep : Str) : List Str → Str
  | [] => []
  | [x] => x
  | x :: y :: rest => x ++ sep ++ joinStr sep (y :: rest)

/-- Drop a single trailing carriage return, if present. -/
def dropCR (l : Str) : Str :=
  match l.reverse with
  | [] => l
  | c :: t => if c == '\r' then t.reverse else l

/-- `text.split(/\r?\n/)`: split on line feeds, then strip the optional
carriage return preceding each line feed. -/
def splitLines (s : Str) : List Str := (splitChar '\n' s).map dropCR

/-- `a.isPrefixOf b` as the source's `String.prototype.startsWith`. -/
def jsStartsWith (pre s : Str) : Bool := List.isPrefixOf pre s

/-- Auxiliary for substring search: does `s` contain `sub` as a
contiguous substring? -/
def hasSub (sub : Str) : Str → Bool
  | [] => sub.isEmpty
  | c :: t => List.isPrefixOf sub (c :: t) || hasSub sub t

/-- `String.prototype.includes`. -/
def jsIncludes (s sub : Str) : Bool := hasSub sub s

/-- A JavaScript object holding string fields: association list in key
insertion order. -/
abbrev Rec := List (Str × Str)

/-- Property read `r.k`, with absent fields read as the empty string
(every read site in the source applies `|| ""` or `?? ""`). -/
def getF (r : Rec) (k : Str) : Str :=
  match r.find? (fun p => p.1 == k) with
  | some p => p.2
  | none => []

/-- Property write `r[k] = v`: overwrite in place if the key exists
(JavaScript objects keep first-insertion key order), else append. -/
def setF (r : Rec) (k v : Str) : Rec :=
  if r.any (fun p => p.1 == k) then
    r.map (fun p => if p.1 == k then (k, v) else p)
  else r ++ [(k, v)]

/-- The keys of a record, in insertion order (`Object.keys`). -/
def keysOf (r : Rec) : List Str := r.map Prod.fst

/-- One data row of `parseCSV`:
`headers.forEach((h, i) => (row[h.trim()] = (cols[i] || "").trim()))`. -/
def buildRow (headers cols : List Str) : Rec :=
  (List.enum headers).foldl
    (fun row hi => setF row (jsTrim hi.2) (jsTrim (cols.getD hi.1 []))) []

/-- The Tabular Decoder (`parseCSV`): trim, split into lines, first line
is the comma-separated header row, every later line a comma-separated
data row. -/
def parseCSV (text : Str) : List Rec :=
  let lines := splitLines (jsTrim text)
  if lines.isEmpty then []
  else
    match lines with
    | [] => []
    | l0 :: rest =>
      let headers := splitChar ',' l0
      rest.map (fun l => buildRow headers (splitChar ',' l))

-- sanity examples for the decoder
example : parseCSV ("a, b\n 1,2 \n3".toList) =
    [[("a".toList, "1".toList), ("b".toList, "2".toList)],
     [("a".toList, "3".toList), ("b".toList, [])]] := by decide

example : parseCSV ("  ".toList) = [] := by decide

/-! ## Metrics Aggregator -/

/-- `String(x||"").toLowerCase() === "yes"`. -/
def isYes (s : Str) : Bool := lowerStr s == "yes".toList

/-- `Math.round`: the integer closest to the argument, ties toward
positive infinity (ECMA-262 defines it exactly on the real value of the
double, which here is the exact rational `q`). -/
def jsRound (q : ℚ) : ℤ := ⌊q + 1 / 2⌋

/-!
The percentage metric is computed by the source in IEEE-754 binary64
("double") arithmetic: `Math.round(100 * (part/total))`.  Binary64 is
modelled exactly: a double is a pair `(m, s)` of mantissa and exponent
with value `m * 2^s`, and each arithmetic step rounds its exact rational
result to 53 significant bits, ties to even.  The operands `part` and
`total` are JS array (filter) lengths, hence below `2^32 < 2^53` and
exact as doubles, so only the quotient and the product round.
-/

/-- Position of the highest set bit by shift-based binary search
(`blAux 12 n 0 = ⌊log2 n⌋` for `1 ≤ n < 2^4096`, far beyond the binary64
range). -/
def blAux : ℕ → ℕ → ℕ → ℕ
  | 0, _, acc => acc
  | f + 1, n, acc =>
    if n >>> (2 ^ f) ≠ 0 then blAux f (n >>> (2 ^ f)) (acc + 2 ^ f)
    else blAux f n acc

/-- `⌊log2 n⌋` for `n ≥ 1`. -/
def floorLog2 (n : ℕ) : ℕ := blAux 12 n 0

/-- Does `2^k ≤ n / d` hold (for `n, d ≥ 1`)? -/
def pow2le (d n : ℕ) (k : ℤ) : Bool :=
  if 0 ≤ k then d * 2 ^ k.toNat ≤ n else d ≤ n * 2 ^ (-k).toNat

/-- `⌊log2 (n/d)⌋` for `n, d ≥ 1`: the integer-part difference of the
bit lengths, corrected by direct comparison. -/
def ilogND (n d : ℕ) : ℤ :=
  let c : ℤ := (floorLog2 n : ℤ) - (floorLog2 d : ℤ)
  if pow2le d n (c + 1) then c + 1 else if pow2le d n c then c else c - 1

/-- Round `n/d` (with `d ≥ 1`) to the nearest natural, ties to even. -/
def rne2 (n d : ℕ) : ℕ :=
  let q := n / d
  let r := n % d
  if 2 * r < d then q else if d < 2 * r then q + 1 else if q % 2 = 0 then q else q + 1

/-- The binary64 rounding of `n/d` as a mantissa/exponent pair `(m, s)`
with value `m * 2^s`: 53 significant bits (exponent `⌊log2(n/d)⌋ - 52`,
floored at the subnormal limit `-1074`), round to nearest, ties to
even. -/
def mant (n d : ℕ) : ℕ × ℤ :=
  if n = 0 then (0, 0)
  else
    let e := ilogND n d
    let s : ℤ := if e - 52 ≤ -1074 then -1074 else e - 52
    if 0 ≤ s then (rne2 n (d * 2 ^ s.toNat), s)
    else (rne2 (n * 2 ^ (-s).toNat) d, s)

/-- Binary64 product of the exact small natural `k` with the double
`(m, s)`: the exact product re-rounded to 53 bits. -/
def mulF (k : ℕ) (p : ℕ × ℤ) : ℕ × ℤ :=
  if 0 ≤ p.2 then mant (k * p.1 * 2 ^ p.2.toNat) 1
  else mant (k * p.1) (2 ^ (-p.2).toNat)

/-- The exact rational value of a mantissa/exponent pair. -/
def dyadic (p : ℕ × ℤ) : ℚ :=
  if 0 ≤ p.2 then (p.1 : ℚ) * 2 ^ p.2.toNat else (p.1 : ℚ) / 2 ^ (-p.2).toNat

/-- `pct(part, total) = Math.round(100 * (total ? part/total : 0))` in
binary64: the quotient `part/total` rounds to a double, the product with
the (exact) constant 100 rounds again, and `Math.round` acts on the
resulting double's exact value. -/
def pct (part total : ℕ) : ℤ :=
  jsRound (dyadic (mulF 100 (if total ≠ 0 then mant part total else (0, 0))))

/-- Hosts counted as confirmed by the Metrics Aggregator. -/
def confirmedCount (l : List Rec) : ℕ :=
  (l.filter (fun h => isYes (getF h "confirmed".toList))).length

/-- `metrics.hostsConfirmedPct` (the guest percentage is the same
function applied to the guest collection). -/
def hostsConfirmedPct (hs : List Rec) : ℤ := pct (confirmedCount hs) hs.length

/-- `metrics.openIncidents`. -/
def openIncidents (l : List Rec) : ℕ :=
  (l.filter (fun i => !(lowerStr (getF i "status".toList) == "closed".toList))).length

-- sanity examples for the binary64 pipeline (values checked against
-- binary64 arithmetic: fl(23/40) = 5179139571476070 * 2^-53 and
-- fl(100 * fl(23/40)) = 8092405580431359 * 2^-47 = 57.49999999999999)
example : mant 23 40 = (5179139571476070, -53) := by decide
example : mulF 100 (5179139571476070, -53) = (8092405580431359, -47) := by decide
example : mant 1 1 = (4503599627370496, -52) := by decide

/-! ## Filter Engine -/

/-- The active record class of the table view. -/
inductive Tab where
  | hosts
  | guests
deriving DecidableEq

/-- The filter configuration (`{gender, allergy, access}`). -/
structure Filters where
  gender : Str
  allergy : Str
  access : Str

/-- The collection the active tab selects. -/
def srcOf (tab : Tab) (hosts guests : List Rec) : List Rec :=
  match tab with
  | .hosts => hosts
  | .guests => guests

/-- Gender predicate: `filters.gender === "all" || g.includes(filters.gender)`
where `g = String(r.gender_comfort || r.gender || "").toLowerCase()`. -/
def genderPred (fl : Filters) (r : Rec) : Bool :=
  fl.gender == "all".toList ||
    jsIncludes (lowerStr (jsOr (getF r "gender_comfort".toList) (getF r "gender".toList))) fl.gender

/-- Allergy predicate over `String(r.allergies||"").toLowerCase()`. -/
def allergyPred (fl : Filters) (r : Rec) : Bool :=
  fl.allergy == "all".toList || jsIncludes (lowerStr (getF r "allergies".toList)) fl.allergy

/-- Accessibility predicate over `String(r.accessibility||"").toLowerCase()`. -/
def accessPred (fl : Filters) (r : Rec) : Bool :=
  fl.access == "all".toList || jsIncludes (lowerStr (getF r "accessibility".toList)) fl.access

/-- Free-text predicate: `!q || String(r.name||"").toLowerCase().includes(q)`
with `q = search.toLowerCase()`. -/
def searchPred (search : Str) (r : Rec) : Bool :=
  (lowerStr search).isEmpty || jsIncludes (lowerStr (getF r "name".toList)) (lowerStr search)

/-- Conjunction of the four filter predicates (`okG && okA && okAc && okQ`). -/
def rowOk (fl : Filters) (search : Str) (r : Rec) : Bool :=
  genderPred fl r && allergyPred fl r && accessPred fl r && searchPred search r

/-- `filteredRows`: the active class's collection filtered by `rowOk`. -/
def filteredRows (tab : Tab) (hosts guests : List Rec) (fl : Filters) (search : Str) :
    List Rec :=
  (srcOf tab hosts guests).filter (rowOk fl search)

/-! ## Matching Engine -/

/-- Separator class of the allergy tokenizer `split(/[;,\s]+/)`. -/
def sepChar (c : Char) : Bool := c == ';' || c == ',' || c.isWhitespace

/-- Fuelled worker for `tokenRuns`. -/
def tokenRunsAux : ℕ → Str → List Str
  | 0, _ => []
  | _ + 1, [] => []
  | fuel + 1, c :: t =>
    if sepChar c then tokenRunsAux fuel t
    else (c :: t.takeWhile (fun d => !sepChar d)) ::
      tokenRunsAux fuel (t.dropWhile (fun d => !sepChar d))

/-- The maximal separator-free runs of a string: `split(/[;,\s]+/)` minus
the empty strings that can flank the result, which the consuming
`some(x => x && ...)` guard discards anyway. -/
def tokenRuns (s : Str) : List Str := tokenRunsAux s.length s

/-- A suggestion produced by the Matching Engine. -/
structure Sug where
  guest_id : Str
  host_id : Str
  score : ℕ
  reasons : List Str
deriving DecidableEq

/-- The body of the guest×host loop: `none` when the pair is skipped
(gender gate fails, or defensively when the score is 0), otherwise the
suggestion pushed onto `out`. -/
def pairSuggestion (g h : Rec) : Option Sug :=
  let pref := lowerStr (getF h "gender_comfort".toList)
  let gg := lowerStr (getF g "gender".toList)
  let genderOk := pref.isEmpty || pref == "any".toList ||
    (jsIncludes pref "female".toList && jsStartsWith "f".toList gg) ||
    (jsIncludes pref "male".toList && jsStartsWith "m".toList gg) ||
    (jsIncludes pref "nonbinary".toList && jsStartsWith "n".toList gg)
  if !genderOk then none
  else
    let ga := lowerStr (getF g "allergies".toList)
    let ha := lowerStr (getF h "allergies".toList)
    let allergyOk := ga.isEmpty || ha.isEmpty ||
      !((tokenRuns ha).any (fun x => !x.isEmpty && jsIncludes ga x))
    let sr1 : ℕ × List Str :=
      if genderOk then (0 + 10, [] ++ ["Gender comfort ok".toList]) else (0, [])
    let sr2 := if allergyOk then (sr1.1 + 5, sr1.2 ++ ["Allergies compatible".toList]) else sr1
    let sr3 :=
      if jsIncludes (lowerStr (getF g "accessibility".toList)) "wheelchair".toList &&
          jsIncludes (lowerStr (getF h "accessibility".toList)) "elevator".toList then
        (sr2.1 + 3, sr2.2 ++ ["Accessibility".toList])
      else sr2
    let sr4 :=
      if isYes (getF g "confirmed".toList) && isYes (getF h "confirmed".toList) then
        (sr3.1 + 2, sr3.2 ++ ["Both confirmed".toList])
      else sr3
    if sr4.1 > 0 then
      some { guest_id := getF g "id".toList, host_id := getF h "id".toList,
             score := sr4.1, reasons := sr4.2 }
    else none

/-- The `out` array: the guest-major, host-minor cross product, keeping
the pairs that produce a suggestion. -/
def rawSuggestions (gs hs : List Rec) : List Sug :=
  gs.flatMap (fun g => hs.filterMap (fun h => pairSuggestion g h))

/-- One step of the stable descending sort: insert `x` (originally ahead
of the already-sorted elements) before the first element it outscores or
ties with. -/
def insertDesc (x : Sug) : List Sug → List Sug
  | [] => [x]
  | y :: ys => if y.score ≤ x.score then x :: y :: ys else y :: insertDesc x ys

/-- `out.sort((a, b) => b.score - a.score)`: ECMA-262 requires
`Array.prototype.sort` to be stable, so it is modelled by a stable
descending insertion sort. -/
def sortDesc : List Sug → List Sug
  | [] => []
  | x :: xs => insertDesc x (sortDesc xs)

/-- The Matching Engine's output: sort descending by score, keep 50. -/
def suggestions (gs hs : List Rec) : List Sug :=
  (sortDesc (rawSuggestions gs hs)).take 50

-- sanity example: the spec's scoring example
example :
    (suggestions
      [[("allergies".toList, []), ("accessibility".toList, "wheelchair".toList),
        ("confirmed".toList, "yes".toList), ("gender".toList, "female".toList)]]
      [[("allergies".toList, "peanuts".toList), ("accessibility".toList, "elevator".toList),
        ("confirmed".toList, "yes".toList), ("gender_comfort".toList, "any".toList)]]).map
      (fun s => (s.score, s.reasons)) =
    [(20, ["Gender comfort ok".toList, "Allergies compatible".toList,
           "Accessibility".toList, "Both confirmed".toList])] := by decide

/-! ## Incident Ledger -/

/-- The new-incident form fields, each read off the `FormData` with the
empty string standing for a missing/blank input. -/
structure AddForm where
  time : Str
  type : Str
  person : Str
  status : Str
  notes : Str

/-- The record built by `addIncident`; `now` is the
`new Date().toISOString()` default for a blank time field. -/
def mkIncidentRow (now : Str) (f : AddForm) : Rec :=
  [("time".toList, jsOr f.time now),
   ("type".toList, jsOr f.type []),
   ("person".toList, jsOr f.person []),
   ("status".toList, jsOr f.status "Open".toList),
   ("notes".toList, jsOr f.notes [])]

/-- `setAddedIncidents([row, ...addedIncidents])`. -/
def addIncident (now : Str) (f : AddForm) (added : List Rec) : List Rec :=
  mkIncidentRow now f :: added

/-- `incidentRows = [...addedIncidents, ...incidents]`. -/
def incidentRows (added loaded : List Rec) : List Rec := added ++ loaded

/-- `v.replace(/"/g, '""')`: double every double quote. -/
def doubleQuotes : Str → Str
  | [] => []
  | c :: t => if c == '"' then '"' :: '"' :: doubleQuotes t else c :: doubleQuotes t

/-- `esc`: wrap in double quotes, doubling embedded double quotes. -/
def escVal (v : Str) : Str := '"' :: (doubleQuotes v ++ ['"'])

/-- `exportIncidents`: `none` models the early return that produces no
artifact; otherwise the serialized CSV text offered for download. -/
def exportIncidents (rows : List Rec) : Option Str :=
  match rows with
  | [] => none
  | r0 :: _ =>
    let headers := keysOf r0
    some (joinStr "\n".toList
      (joinStr ",".toList headers ::
        rows.map (fun r => joinStr ",".toList (headers.map (fun h => escVal (getF r h))))))

-- sanity example for export
example : exportIncidents [[("a".toList, "x\"y".toList)]] =
    some "a\n\"x\"\"y\"".toList := by decide

/-! ## Claim theorems: concrete behaviour -/

/-- C2: for the host `{allergies: "peanuts", accessibility: "elevator",
confirmed: "yes", gender_comfort: "any"}` and the guest
`{allergies: "", accessibility: "wheelchair", confirmed: "yes",
gender: "female"}`, the Matching Engine produces a suggestion with score
exactly 20 and reasons exactly `["Gender comfort ok",
"Allergies compatible", "Accessibility", "Both confirmed"]`. -/
theorem scoring_example_C2 :
    (suggestions
      [[("allergies".toList, []), ("accessibility".toList, "wheelchair".toList),
        ("confirmed".toList, "yes".toList), ("gender".toList, "female".toList)]]
      [[("allergies".toList, "peanuts".toList), ("accessibility".toList, "elevator".toList),
        ("confirmed".toList, "yes".toList), ("gender_comfort".toList, "any".toList)]]).map
      (fun s => (s.score, s.reasons)) =
    [(20, ["Gender comfort ok".toList, "Allergies compatible".toList,
           "Accessibility".toList, "Both confirmed".toList])] := by decide

/-- C3: a host with `gender_comfort = "female"` paired with a guest whose
`gender = "nonbinary-example"` fails the gender gate, so no suggestion is
produced for the pair; the same host paired with a guest whose
`gender = "Female"` passes the gate and yields a suggestion. -/
theorem gender_gate_example_C3 :
    pairSuggestion [("gender".toList, "nonbinary-example".toList)]
      [("gender_comfort".toList, "female".toList)] = none ∧
    suggestions [[("gender".toList, "nonbinary-example".toList)]]
      [[("gender_comfort".toList, "female".toList)]] = [] ∧
    (pairSuggestion [("gender".toList, "Female".toList)]
      [("gender_comfort".toList, "female".toList)]).isSome = true ∧
    (suggestions [[("gender".toList, "Female".toList)]]
      [[("gender_comfort".toList, "female".toList)]]).length = 1 := by decide

/-- C5: `addIncident` prepends the new row to the session-local added
list, the merged view is the added list followed by the loaded incidents
in order, and hence adding A then B over loaded `[X, Y]` merges to
`[B, A, X, Y]`. -/
theorem incident_merge_order_C5 (fA fB : AddForm) (nowA nowB : Str)
    (added loaded : List Rec) (X Y : Rec) :
    addIncident nowA fA added = mkIncidentRow nowA fA :: added ∧
    incidentRows added loaded = added ++ loaded ∧
    incidentRows (addIncident nowB fB (addIncident nowA fA [])) [X, Y] =
      [mkIncidentRow nowB fB, mkIncidentRow nowA fA, X, Y] := by
  refine ⟨rfl, rfl, rfl⟩

/-- C6 counterexample: 40 hosts of which 23 are confirmed. The program
computes `100 * (23/40)` in binary64, giving the double
`8092405580431359 * 2^-47 = 57.49999999999999…`, so `Math.round` yields
57 — while the claim's exact `round(100 * 23/40) = round(57.5)` is 58.
The claim's universal equation is therefore false on the code at this
input. -/
theorem hosts_confirmed_pct_cex_C6 :
    confirmedCount (List.replicate 23 [("confirmed".toList, "yes".toList)] ++
      List.replicate 17 [("confirmed".toList, "no".toList)]) = 23 ∧
    (List.replicate 23 [("confirmed".toList, "yes".toList)] ++
      List.replicate 17 [("confirmed".toList, "no".toList)]).length = 40 ∧
    hostsConfirmedPct (List.replicate 23 [("confirmed".toList, "yes".toList)] ++
      List.replicate 17 [("confirmed".toList, "no".toList)]) = 57 ∧
    jsRound (100 * (23 : ℚ) / 40) = 58 := by
  have hc : confirmedCount (List.replicate 23 [("confirmed".toList, "yes".toList)] ++
      List.replicate 17 [("confirmed".toList, "no".toList)]) = 23 := by decide
  have hl : (List.replicate 23 [("confirmed".toList, "yes".toList)] ++
      List.replicate 17 [("confirmed".toList, "no".toList)]).length = 40 := by decide
  refine ⟨hc, hl, ?_, ?_⟩
  · rw [hostsConfirmedPct, hc, hl, pct]
    have hif : (if (40 : ℕ) ≠ 0 then mant 23 40 else (0, 0)) = mant 23 40 :=
      if_pos (by norm_num)
    have hm : mant 23 40 = (5179139571476070, -53) := by decide
    have hmul : mulF 100 (5179139571476070, -53) = (8092405580431359, -47) := by decide
    rw [hif, hm, hmul]
    have hd : dyadic (8092405580431359, -47) = (8092405580431359 : ℚ) / 2 ^ (47 : ℕ) := by
      simp [dyadic]
    rw [hd, jsRound]
    norm_num
  · rw [jsRound]
    norm_num

/-- C6 (amended): `hostsConfirmedPct` is `Math.round` of the binary64
evaluation of `100 * c/n` — the quotient `c/n` correctly rounded to a
double, then the product with 100 correctly rounded — for `c` the count
of hosts whose lower-cased `confirmed` equals `"yes"` (a missing field
reads as `""` and so does not count) and `n` the host count (this can
differ from the exact `round(100 * c/n)`, e.g. at 23 of 40); `n = 0`
yields `0`; and the 4-host example with `confirmed` values
`["Yes", "yes", "no", ""]` gives 50. -/
theorem hosts_confirmed_pct_amended_C6 :
    (∀ hs : List Rec,
      hostsConfirmedPct hs = jsRound (dyadic (mulF 100
        (if hs.length ≠ 0 then mant (confirmedCount hs) hs.length else (0, 0))))) ∧
    hostsConfirmedPct [] = 0 ∧
    hostsConfirmedPct
      [[("confirmed".toList, "Yes".toList)], [("confirmed".toList, "yes".toList)],
       [("confirmed".toList, "no".toList)], [("confirmed".toList, [])]] = 50 := by
  refine ⟨fun hs => rfl, ?_, ?_⟩
  · show pct 0 0 = 0
    rw [pct]
    have hif : (if (0 : ℕ) ≠ 0 then mant 0 0 else (0, 0)) = (0, 0) := if_neg (by norm_num)
    have hmul : mulF 100 (0, 0) = (0, 0) := by decide
    have hd : dyadic (0, 0) = 0 := by simp [dyadic]
    rw [hif, hmul, hd, jsRound]
    norm_num
  · have hc : confirmedCount
        [[("confirmed".toList, "Yes".toList)], [("confirmed".toList, "yes".toList)],
         [("confirmed".toList, "no".toList)], [("confirmed".toList, [])]] = 2 := by decide
    rw [hostsConfirmedPct, hc]
    show pct 2 4 = 50
    rw [pct]
    have hif : (if (4 : ℕ) ≠ 0 then mant 2 4 else (0, 0)) = mant 2 4 := if_pos (by norm_num)
    have hm : mant 2 4 = (4503599627370496, -53) := by decide
    have hmul : mulF 100 (4503599627370496, -53) = (7036874417766400, -47) := by decide
    rw [hif, hm, hmul]
    have hd : dyadic (7036874417766400, -47) = (7036874417766400 : ℚ) / 2 ^ (47 : ℕ) := by
      simp [dyadic]
    rw [hd, jsRound]
    norm_num

/-- C8: the Filter Engine is conjunctive: a record of the active class is
in the filtered set if and only if it is in that class's collection and
passes all four predicates; failing any one predicate excludes it. -/
theorem filter_conjunction_C8 (tab : Tab) (hosts guests : List Rec) (fl : Filters)
    (search : Str) (r : Rec) :
    r ∈ filteredRows tab hosts guests fl search ↔
      r ∈ srcOf tab hosts guests ∧ genderPred fl r = true ∧ allergyPred fl r = true ∧
        accessPred fl r = true ∧ searchPred search r = true := by
  simp [filteredRows, rowOk, List.mem_filter, Bool.and_eq_true, and_assoc]

/-- C10: exporting an empty merged incident sequence produces no
artifact; a non-empty sequence serializes with the first record's keys as
the header row and every value double-quote-wrapped, and the escape
doubles exactly the embedded double quotes. -/
theorem export_incidents_C10 :
    exportIncidents ([] : List Rec) = none ∧
    (∀ (r : Rec) (rs : List Rec),
      exportIncidents (r :: rs) =
        some (joinStr "\n".toList
          (joinStr ",".toList (keysOf r) ::
            (r :: rs).map
              (fun row => joinStr ",".toList ((keysOf r).map (fun h => escVal (getF row h))))))) ∧
    (∀ v : Str,
      escVal v = '"' :: (v.flatMap (fun c => if c = '"' then ['"', '"'] else [c])) ++ ['"']) := by
  refine ⟨rfl, fun r rs => rfl, fun v => ?_⟩
  have key : ∀ w : Str,
      doubleQuotes w = w.flatMap (fun c => if c = '"' then ['"', '"'] else [c]) := by
    intro w
    induction w with
    | nil => rfl
    | cons c t ih =>
      by_cases h : c = '"'
      · simp [doubleQuotes, h, ih]
      · simp [doubleQuotes, h, ih]
  rw [escVal, key, List.cons_append]

/-! ## Claim C4: "male" is a substring of "female" -/

/-- `hasSub` decides the contiguous-substring relation. -/
theorem hasSub_iff (sub s : Str) : hasSub sub s = true ↔ sub <:+: s := by
  induction s with
  | nil => simp [hasSub, List.isEmpty_iff, List.infix_nil]
  | cons c t ih =>
    simp [hasSub, List.infix_cons_iff, List.isPrefixOf_iff_prefix, ih, Bool.or_eq_true]

/-- C4: any host whose lower-cased `gender_comfort` contains `"female"`
passes the gender gate against any guest whose lower-cased `gender`
starts with `"m"` — because `"male"` is a substring of `"female"` — so
the pair is scored and a suggestion is produced for it. -/
theorem male_substring_gate_C4 (g h : Rec)
    (hf : jsIncludes (lowerStr (getF h "gender_comfort".toList)) "female".toList = true)
    (hm : jsStartsWith "m".toList (lowerStr (getF g "gender".toList)) = true) :
    (pairSuggestion g h).isSome = true ∧ suggestions [g] [h] ≠ [] := by
  have hmale : jsIncludes (lowerStr (getF h "gender_comfort".toList)) "male".toList = true := by
    rw [jsIncludes, hasSub_iff] at hf ⊢
    exact List.IsInfix.trans (by decide) hf
  have hsome : (pairSuggestion g h).isSome = true := by
    simp only [pairSuggestion, hmale, hm]
    simp only [Bool.and_true, Bool.or_true, Bool.true_or, Bool.not_true, Bool.false_eq_true,
      if_false, if_true]
    split_ifs <;> simp_all
  refine ⟨hsome, ?_⟩
  obtain ⟨s, hs⟩ := Option.isSome_iff_exists.mp hsome
  simp [suggestions, rawSuggestions, hs, sortDesc, insertDesc]

/-- Witness for C4 at a concrete host with `gender_comfort = "female"`
and guest with `gender = "male"`. -/
theorem male_substring_gate_C4_witness :
    jsIncludes (lowerStr (getF [("gender_comfort".toList, "female".toList)]
      "gender_comfort".toList)) "female".toList = true ∧
    jsStartsWith "m".toList (lowerStr (getF [("gender".toList, "male".toList)]
      "gender".toList)) = true ∧
    (pairSuggestion [("gender".toList, "male".toList)]
      [("gender_comfort".toList, "female".toList)]).isSome = true ∧
    suggestions [[("gender".toList, "male".toList)]]
      [[("gender_comfort".toList, "female".toList)]] ≠ [] :=
  ⟨by decide, by decide,
    (male_substring_gate_C4 [("gender".toList, "male".toList)]
      [("gender_comfort".toList, "female".toList)] (by decide) (by decide)).1,
    (male_substring_gate_C4 [("gender".toList, "male".toList)]
      [("gender_comfort".toList, "female".toList)] (by decide) (by decide)).2⟩

/-! ## Claim C1: ranked, stable, capped suggestion list -/

/-- Inserting stably is a permutation of consing. -/
theorem insertDesc_perm (x : Sug) (l : List Sug) : List.Perm (insertDesc x l) (x :: l) := by
  induction l with
  | nil => exact List.Perm.refl _
  | cons y ys ih =>
    rw [insertDesc]
    by_cases hxy : y.score ≤ x.score
    · rw [if_pos hxy]
    · rw [if_neg hxy]
      exact (ih.cons y).trans (List.Perm.swap x y ys)

/-- The stable sort permutes its input. -/
theorem sortDesc_perm (l : List Sug) : List.Perm (sortDesc l) l := by
  induction l with
  | nil => exact List.Perm.refl _
  | cons x xs ih => exact (insertDesc_perm x (sortDesc xs)).trans (ih.cons x)

/-- Stable insertion preserves descending sortedness. -/
theorem insertDesc_pairwise (x : Sug) (l : List Sug)
    (h : List.Pairwise (fun a b : Sug => b.score ≤ a.score) l) :
    List.Pairwise (fun a b : Sug => b.score ≤ a.score) (insertDesc x l) := by
  induction l with
  | nil => simp [insertDesc]
  | cons y ys ih =>
    rw [insertDesc]
    rw [List.pairwise_cons] at h
    by_cases hxy : y.score ≤ x.score
    · rw [if_pos hxy, List.pairwise_cons]
      refine ⟨?_, List.pairwise_cons.mpr h⟩
      intro z hz
      rcases List.mem_cons.mp hz with hz | hz
      · subst hz; exact hxy
      · exact le_trans (h.1 z hz) hxy
    · rw [if_neg hxy, List.pairwise_cons]
      refine ⟨?_, ih h.2⟩
      intro z hz
      rcases List.mem_cons.mp ((insertDesc_perm x ys).mem_iff.mp hz) with hz | hz
      · subst hz; omega
      · exact h.1 z hz

/-- The sort output is sorted by descending score. -/
theorem sortDesc_pairwise (l : List Sug) :
    List.Pairwise (fun a b : Sug => b.score ≤ a.score) (sortDesc l) := by
  induction l with
  | nil => simp [sortDesc]
  | cons x xs ih => exact insertDesc_pairwise x (sortDesc xs) ih

/-- Stability, elementwise: inserting `x` does not disturb the relative
order of the elements of any fixed score. -/
theorem filter_insertDesc (v : ℕ) (x : Sug) (l : List Sug) :
    (insertDesc x l).filter (fun s => s.score == v) =
      if x.score = v then x :: l.filter (fun s => s.score == v)
      else l.filter (fun s => s.score == v) := by
  induction l with
  | nil => by_cases h : x.score = v <;> simp [insertDesc, h]
  | cons y ys ih =>
    rw [insertDesc]
    by_cases hxy : y.score ≤ x.score
    · rw [if_pos hxy]
      by_cases h : x.score = v <;> simp [List.filter_cons, h]
    · rw [if_neg hxy]
      by_cases h : x.score = v
      · have hy : ¬y.score = v := by omega
        simp [List.filter_cons, ih, h, hy]
      · by_cases hy : y.score = v <;> simp [List.filter_cons, ih, h, hy]

/-- Stability of the sort: within each score class the original
(guest-major, host-minor) enumeration order is preserved. -/
theorem filter_sortDesc (v : ℕ) (l : List Sug) :
    (sortDesc l).filter (fun s => s.score == v) = l.filter (fun s => s.score == v) := by
  induction l with
  | nil => rfl
  | cons x xs ih =>
    rw [sortDesc, filter_insertDesc]
    by_cases h : x.score = v <;> simp [List.filter_cons, h, ih]

/-- Each guest contributes at most one suggestion per host. -/
theorem rawSuggestions_length_le (gs hs : List Rec) :
    (rawSuggestions gs hs).length ≤ gs.length * hs.length := by
  rw [rawSuggestions]
  induction gs with
  | nil => simp
  | cons g gs' ih =>
    rw [List.flatMap_cons, List.length_append]
    have h1 : (hs.filterMap (fun h => pairSuggestion g h)).length ≤ hs.length :=
      List.length_filterMap_le _ _
    have h2 : (g :: gs').length * hs.length = hs.length + gs'.length * hs.length := by
      rw [List.length_cons]; ring
    omega

/-- C1: the Matching Engine's output is the first 50 of the stable
descending sort of the qualifying (guest, host) pairs taken in
guest-major, host-minor cross-product order: the sorted list permutes
the qualifying pairs, is descending in score, preserves the enumeration
order within each score class (tie-break), and the output length is at
most `min 50 (|guests| * |hosts|)`. -/
theorem suggestions_sorted_capped_C1 (gs hs : List Rec) :
    suggestions gs hs = (sortDesc (rawSuggestions gs hs)).take 50 ∧
    List.Perm (sortDesc (rawSuggestions gs hs)) (rawSuggestions gs hs) ∧
    List.Pairwise (fun a b : Sug => b.score ≤ a.score) (sortDesc (rawSuggestions gs hs)) ∧
    (∀ v : ℕ, (sortDesc (rawSuggestions gs hs)).filter (fun s => s.score == v) =
      (rawSuggestions gs hs).filter (fun s => s.score == v)) ∧
    (suggestions gs hs).length ≤ min 50 (gs.length * hs.length) := by
  refine ⟨rfl, sortDesc_perm _, sortDesc_pairwise _, fun v => filter_sortDesc v _, ?_⟩
  rw [suggestions, List.length_take, (sortDesc_perm (rawSuggestions gs hs)).length_eq]
  have := rawSuggestions_length_le gs hs
  omega

/-! ## Claim C9: the decoder is total and fills/drops positionally -/

/-- Assigning a fresh key appends it (the overwrite branch is not taken). -/
theorem setF_of_not_mem (r : Rec) (k v : Str) (h : k ∉ keysOf r) :
    setF r k v = r ++ [(k, v)] := by
  rw [setF, if_neg]
  simp only [List.any_eq_true, beq_iff_eq, not_exists]
  intro p hp
  exact h (by simpa [keysOf, hp.2] using List.mem_map_of_mem Prod.fst hp.1)

/-- The row-building fold over headers with pairwise-distinct trimmed
names appends one `(trimmed header, trimmed value-at-index)` entry per
header. -/
theorem buildRow_aux (hs : List Str) (cs : List Str) :
    ∀ (n : ℕ) (acc : Rec), (hs.map jsTrim).Nodup →
      (∀ k ∈ hs, jsTrim k ∉ keysOf acc) →
      (List.enumFrom n hs).foldl
          (fun row hi => setF row (jsTrim hi.2) (jsTrim (cs.getD hi.1 []))) acc =
        acc ++ (List.enumFrom n hs).map (fun p => (jsTrim p.2, jsTrim (cs.getD p.1 []))) := by
  induction hs with
  | nil => intro n acc _ _; simp
  | cons k t ih =>
    intro n acc hnd hacc
    rw [List.enumFrom_cons, List.foldl_cons, List.map_cons]
    rw [setF_of_not_mem acc (jsTrim k) _ (hacc k (List.mem_cons_self k t))]
    rw [List.map_cons, List.nodup_cons] at hnd
    rw [ih (n + 1) _ hnd.2 ?_]
    · rw [List.append_assoc]; rfl
    · intro k' hk'
      rw [keysOf, List.map_append]
      simp only [List.mem_append, keysOf, List.map_cons, List.map_nil, List.mem_singleton]
      rintro (hmem | heq)
      · exact hacc k' (List.mem_cons_of_mem k hk') hmem
      · exact hnd.1 (heq ▸ List.mem_map_of_mem jsTrim hk')

/-- `buildRow` explicitly: entry `i` is the trimmed header `i` paired
with the trimmed column `i` (missing columns read as `""`). -/
theorem buildRow_enum (hs cs : List Str) (hnd : (hs.map jsTrim).Nodup) :
    buildRow hs cs = (List.enum hs).map (fun p => (jsTrim p.2, jsTrim (cs.getD p.1 []))) := by
  rw [buildRow]
  have h := buildRow_aux hs cs 0 [] hnd (by simp [keysOf])
  simpa using h

/-- Reading `replicate` always yields the replicated element (whether in
range or as default). -/
theorem getD_replicate_nil (m i : ℕ) : (List.replicate m ([] : Str)).getD i [] = [] := by
  induction m generalizing i with
  | zero => rfl
  | succ m' ih =>
    cases i with
    | zero => rfl
    | succ i' => rw [List.replicate_succ, List.getD_cons_succ]; exact ih i'

/-- Within the header range, padding the columns with empty strings and
truncating extras does not change a positional read. -/
theorem getD_pad (cs : List Str) : ∀ (m i : ℕ), i < m →
    (cs.take m ++ List.replicate (m - cs.length) ([] : Str)).getD i [] = cs.getD i [] := by
  induction cs with
  | nil =>
    intro m i _
    rw [List.take_nil, List.nil_append, getD_replicate_nil]
    rfl
  | cons c cs' ih =>
    intro m i him
    cases m with
    | zero => omega
    | succ m' =>
      rw [List.take_succ_cons, List.length_cons, Nat.succ_sub_succ, List.cons_append]
      cases i with
      | zero => rw [List.getD_cons_zero, List.getD_cons_zero]
      | succ i' =>
        rw [List.getD_cons_succ, List.getD_cons_succ]
        exact ih m' i' (by omega)

/-- The row fold only reads column indices below the header count. -/
theorem foldl_setF_congr (hs : List Str) (cs cs' : List Str) :
    ∀ (n : ℕ) (acc : Rec), (∀ p ∈ List.enumFrom n hs, cs.getD p.1 [] = cs'.getD p.1 []) →
      (List.enumFrom n hs).foldl
          (fun row hi => setF row (jsTrim hi.2) (jsTrim (cs.getD hi.1 []))) acc =
        (List.enumFrom n hs).foldl
          (fun row hi => setF row (jsTrim hi.2) (jsTrim (cs'.getD hi.1 []))) acc := by
  induction hs with
  | nil => intro n acc _; rfl
  | cons k t ih =>
    intro n acc hcong
    rw [List.enumFrom_cons, List.foldl_cons, List.foldl_cons]
    rw [hcong (n, k) (List.mem_cons_self _ _)]
    exact ih (n + 1) _ (fun p hp => hcong p (List.mem_cons_of_mem _ hp))

/-- C9: the Tabular Decoder totally maps any raw input to a row list:
input empty after trimming yields the empty list; a short data row is
read as if padded with empty strings and an overlong row as if truncated
to the header count (missing trailing fields become `""`, extras are
dropped); and with pairwise-distinct trimmed header names, row entry `i`
is the trimmed header `i` mapped to the trimmed value `i`. -/
theorem decoder_total_C9 :
    (∀ text : Str, jsTrim text = [] → parseCSV text = []) ∧
    (∀ hs cs : List Str,
      buildRow hs cs =
        buildRow hs (cs.take hs.length ++ List.replicate (hs.length - cs.length) [])) ∧
    (∀ hs cs : List Str, (hs.map jsTrim).Nodup →
      buildRow hs cs = (List.enum hs).map (fun p => (jsTrim p.2, jsTrim (cs.getD p.1 [])))) := by
  refine ⟨?_, ?_, fun hs cs hnd => buildRow_enum hs cs hnd⟩
  · intro text h
    simp [parseCSV, h, splitLines, splitChar, dropCR]
  · intro hs cs
    rw [buildRow, buildRow]
    apply foldl_setF_congr
    intro p hp
    have hlt : p.1 < 0 + hs.length := (List.mem_enumFrom hp).2.1
    exact (getD_pad cs hs.length p.1 (by omega)).symm

/-- Witness for C9 at concrete inputs: a whitespace-only text decodes to
nothing, a one-value row against two headers is read as padded, and a
full row maps each trimmed header to its trimmed value. -/
theorem decoder_total_C9_witness :
    (jsTrim "  ".toList = [] ∧ parseCSV "  ".toList = []) ∧
    buildRow ["a".toList, "b".toList] ["1".toList] =
      buildRow ["a".toList, "b".toList]
        (["1".toList].take ["a".toList, "b".toList].length ++
          List.replicate (["a".toList, "b".toList].length - ["1".toList].length) []) ∧
    ((["a".toList, "b".toList].map jsTrim).Nodup ∧
      buildRow ["a".toList, "b".toList] [" 1".toList, "2 ".toList] =
        (List.enum ["a".toList, "b".toList]).map
          (fun p => (jsTrim p.2, jsTrim (([" 1".toList, "2 ".toList]).getD p.1 [])))) :=
  ⟨⟨by decide, decoder_total_C9.1 "  ".toList (by decide)⟩,
    decoder_total_C9.2.1 ["a".toList, "b".toList] ["1".toList],
    ⟨by decide,
      decoder_total_C9.2.2 ["a".toList, "b".toList] [" 1".toList, "2 ".toList] (by decide)⟩⟩

/-! ## Claim C7: encode/decode round trip -/

/-- Modelled from the spec's round-trip property (the encoding side,
which has no counterpart in the source): "encoding a set of records to
delimited text (header = keys, comma-joined rows)". -/
def specEncodeRecords (ks : List Str) (vss : List (List Str)) : Str :=
  joinStr "\n".toList (joinStr ",".toList ks :: vss.map (joinStr ",".toList))

/-- The record set described by a key list and one value list per
record. -/
def recordsOf (ks : List Str) (vss : List (List Str)) : List Rec :=
  vss.map (fun vs => ks.zip vs)

/-- A cell that survives the decoder's trimming and splitting: nonempty,
no whitespace at either end, and free of commas, LFs and CRs. -/
def cleanCell (v : Str) : Bool :=
  !v.isEmpty && !wsChar (v.headD ' ') && !wsChar (v.reverse.headD ' ') &&
    v.all (fun c => !(c == ',' || c == '\n' || c == '\r'))

/-- `splitChar` never returns the empty list. -/
theorem splitChar_ne_nil (c : Char) (s : Str) : splitChar c s ≠ [] := by
  induction s with
  | nil => simp [splitChar]
  | cons a as ih =>
    rw [splitChar]
    cases h : splitChar c as with
    | nil => exact absurd h ih
    | cons b bs => by_cases hac : a == c <;> simp [hac]

/-- Splitting a separator-free string is the identity (one part). -/
theorem splitChar_not_mem (c : Char) (p : Str) (h : c ∉ p) : splitChar c p = [p] := by
  induction p with
  | nil => rfl
  | cons a as ih =>
    rw [splitChar, ih (fun hm => h (List.mem_cons_of_mem a hm))]
    have hac : (a == c) = false := by
      simp only [beq_eq_false_iff_ne, ne_eq]
      exact fun he => h (he ▸ List.mem_cons_self a as)
    simp [hac]

/-- Splitting peels off a leading separator-free part. -/
theorem splitChar_append (c : Char) (p rest : Str) (h : c ∉ p) :
    splitChar c (p ++ c :: rest) = p :: splitChar c rest := by
  induction p with
  | nil =>
    rw [List.nil_append, splitChar]
    cases hr : splitChar c rest with
    | nil => exact absurd hr (splitChar_ne_nil c rest)
    | cons b bs => simp
  | cons a as ih =>
    rw [List.cons_append, splitChar,
      ih (fun hm => h (List.mem_cons_of_mem a hm))]
    have hac : (a == c) = false := by
      simp only [beq_eq_false_iff_ne, ne_eq]
      exact fun he => h (he ▸ List.mem_cons_self a as)
    simp [hac]

/-- Splitting a separator-join of separator-free parts recovers the
parts. -/
theorem splitChar_joinStr (c : Char) (parts : List Str) (hne : parts ≠ [])
    (h : ∀ p ∈ parts, c ∉ p) : splitChar c (joinStr [c] parts) = parts := by
  induction parts with
  | nil => exact absurd rfl hne
  | cons x xs ih =>
    cases xs with
    | nil => exact splitChar_not_mem c x (h x (List.mem_cons_self x []))
    | cons y rest =>
      have hx : c ∉ x := h x (List.mem_cons_self _ _)
      have hj : joinStr [c] (x :: y :: rest) = x ++ c :: joinStr [c] (y :: rest) := by
        rw [joinStr]; simp
      rw [hj, splitChar_append c x _ hx,
        ih (by simp) (fun p hp => h p (List.mem_cons_of_mem x hp))]

/-- A character distinct from the separator and absent from every part
is absent from the join. -/
theorem not_mem_joinStr (x c : Char) (parts : List Str) (hx : x ≠ c)
    (h : ∀ p ∈ parts, x ∉ p) : x ∉ joinStr [c] parts := by
  induction parts with
  | nil => simp [joinStr]
  | cons p ps ih =>
    cases ps with
    | nil => exact h p (List.mem_cons_self _ _)
    | cons q rest =>
      rw [joinStr]
      intro hmem
      rcases List.mem_append.mp hmem with hmem | hmem
      · rcases List.mem_append.mp hmem with hmem | hmem
        · exact h p (List.mem_cons_self _ _) hmem
        · exact hx (List.mem_singleton.mp hmem)
      · exact ih (fun r hr => h r (List.mem_cons_of_mem p hr)) hmem

/-- A CR-free line keeps its trailing character. -/
theorem dropCR_of_not_mem (l : Str) (h : '\r' ∉ l) : dropCR l = l := by
  rw [dropCR]
  cases hrev : l.reverse with
  | nil => rfl
  | cons c t =>
    have hc : c ∈ l := by
      rw [← List.mem_reverse, hrev]; exact List.mem_cons_self _ _
    have : (c == '\r') = false := by
      simp only [beq_eq_false_iff_ne, ne_eq]
      exact fun he => h (he ▸ hc)
    simp [this]

/-- A string whose head is not whitespace is unchanged by `trimStart`. -/
theorem trimStart_eq_self (s : Str) (h : wsChar (s.headD ' ') = false) :
    trimStart s = s := by
  cases s with
  | nil => rfl
  | cons c t =>
    rw [List.headD_cons] at h
    simp [trimStart, List.dropWhile_cons, h]

/-- A string whose last character is not whitespace is unchanged by
`trimEnd`. -/
theorem trimEnd_eq_self (s : Str) (h : wsChar (s.reverse.headD ' ') = false) :
    trimEnd s = s := by
  rw [trimEnd]
  cases hrev : s.reverse with
  | nil => simpa using congrArg List.reverse hrev.symm
  | cons c t =>
    rw [hrev, List.headD_cons] at h
    have hdw : List.dropWhile wsChar (c :: t) = c :: t := by
      simp [List.dropWhile_cons, h]
    rw [hdw, ← hrev, List.reverse_reverse]

/-- A string with non-whitespace ends is unchanged by `trim`. -/
theorem jsTrim_eq_self (s : Str) (h1 : wsChar (s.headD ' ') = false)
    (h2 : wsChar (s.reverse.headD ' ') = false) : jsTrim s = s := by
  rw [jsTrim, trimStart_eq_self s h1, trimEnd_eq_self s h2]

/-- `headD` of an append reads the left part when it is nonempty. -/
theorem headD_append_left (p q : Str) (hp : p ≠ []) (d : Char) :
    (p ++ q).headD d = p.headD d := by
  cases p with
  | nil => exact absurd rfl hp
  | cons a as => rfl

/-- A join whose last part is nonempty is nonempty. -/
theorem joinStr_ne_nil_of_last (c : Char) :
    ∀ (xs : List Str) (x : Str), x ≠ [] → joinStr [c] (xs ++ [x]) ≠ [] := by
  intro xs x hx
  cases xs with
  | nil => exact hx
  | cons p ps =>
    cases hps : ps ++ [x] with
    | nil => exact absurd hps (by simp)
    | cons q rest =>
      rw [List.cons_append, hps, joinStr]
      simp

/-- The first character of a join is that of its first part. -/
theorem joinStr_headD (c : Char) (x : Str) (xs : List Str) (hx : x ≠ []) (d : Char) :
    (joinStr [c] (x :: xs)).headD d = x.headD d := by
  cases xs with
  | nil => rfl
  | cons y rest =>
    rw [joinStr, headD_append_left _ _ (by simp [hx]) d, headD_append_left x [c] hx d]

/-- The last character of a join is that of its last part (stated via
the head of the reversal). -/
theorem joinStr_last_headD (c d : Char) :
    ∀ (xs : List Str) (x : Str), x ≠ [] →
      (joinStr [c] (xs ++ [x])).reverse.headD d = x.reverse.headD d := by
  intro xs
  induction xs with
  | nil => intro x _; rfl
  | cons p ps ih =>
    intro x hx
    cases hps : ps ++ [x] with
    | nil => exact absurd hps (by simp)
    | cons q rest =>
      rw [List.cons_append, hps, joinStr, ← hps, List.reverse_append,
        headD_append_left _ _ ?_ d]
      · exact ih x hx
      · simpa using joinStr_ne_nil_of_last c ps x hx

/-- Unpacking `cleanCell`. -/
theorem cleanCell_spec (v : Str) (h : cleanCell v = true) :
    v ≠ [] ∧ wsChar (v.headD ' ') = false ∧ wsChar (v.reverse.headD ' ') = false ∧
      ',' ∉ v ∧ '\n' ∉ v ∧ '\r' ∉ v := by
  rw [cleanCell] at h
  simp only [Bool.and_eq_true, Bool.not_eq_true', List.all_eq_true] at h
  obtain ⟨⟨⟨h1, h2⟩, h3⟩, h4⟩ := h
  refine ⟨?_, h2, h3, ?_, ?_, ?_⟩
  · intro he
    rw [he] at h1
    simp at h1
  · intro hm
    have := h4 ',' hm
    simp at this
  · intro hm
    have := h4 '\n' hm
    simp at this
  · intro hm
    have := h4 '\r' hm
    simp at this

/-- Shifting the enumeration start absorbs one leading column. -/
theorem enumMap_shift (t : List Str) :
    ∀ (n : ℕ) (c : Str) (cs' : List Str),
      ((List.enumFrom (n + 1) t).map fun p => ((p.2 : Str), (c :: cs').getD p.1 [])) =
        ((List.enumFrom n t).map fun p => (p.2, cs'.getD p.1 [])) := by
  induction t with
  | nil => intro n c cs'; rfl
  | cons k t' ih =>
    intro n c cs'
    rw [List.enumFrom_cons, List.enumFrom_cons, List.map_cons, List.map_cons]
    rw [List.getD_cons_succ, ih (n + 1) c cs']

/-- Enumerated positional reads of an equally long column list give the
zip. -/
theorem enumMap_zip (hs : List Str) :
    ∀ cs : List Str, cs.length = hs.length →
      ((List.enumFrom 0 hs).map fun p => ((p.2 : Str), cs.getD p.1 [])) = hs.zip cs := by
  induction hs with
  | nil => intro cs _; rfl
  | cons k t ih =>
    intro cs hlen
    cases cs with
    | nil => simp at hlen
    | cons c cs' =>
      rw [List.enumFrom_cons, List.map_cons, List.getD_cons_zero,
        enumMap_shift t 0 c cs', List.zip_cons_cons]
      rw [ih cs' (by simpa using hlen)]

/-- A clean header row and an equally long clean value row build the
zipped record. -/
theorem buildRow_zip (ks vs : List Str) (hnd : ks.Nodup)
    (hk : ∀ k ∈ ks, jsTrim k = k) (hv : ∀ v ∈ vs, jsTrim v = v)
    (hlen : vs.length = ks.length) : buildRow ks vs = ks.zip vs := by
  have hmap : ks.map jsTrim = ks := by
    rw [List.map_congr_left hk]
    simp
  rw [buildRow_enum ks vs (by rw [hmap]; exact hnd)]
  have henum : List.enum ks = List.enumFrom 0 ks := rfl
  rw [henum, List.map_congr_left (g := fun p => ((p.2 : Str), vs.getD p.1 [])) ?_]
  · exact enumMap_zip ks vs hlen
  · intro p hp
    have hmem := List.mem_enumFrom hp
    have hp2 : p.2 ∈ ks := by
      rw [hmem.2.2]
      exact List.getElem_mem _
    have hp1 : p.1 < ks.length := by
      have := hmem.2.1
      omega
    have hvmem : vs.getD p.1 [] ∈ vs := by
      rw [List.getD_eq_getElem vs [] (by omega)]
      exact List.getElem_mem _
    rw [hk p.2 hp2, hv _ hvmem]

/-- A join of nonempty parts is nonempty. -/
theorem joinStr_ne_nil_clean (c : Char) (parts : List Str) (hne : parts ≠ [])
    (h : ∀ p ∈ parts, p ≠ []) : joinStr [c] parts ≠ [] := by
  have h0 := h _ (List.getLast_mem hne)
  have := joinStr_ne_nil_of_last c parts.dropLast (parts.getLast hne) h0
  rwa [List.dropLast_append_getLast hne] at this

/-- A join of parts with non-whitespace heads starts with a
non-whitespace character. -/
theorem joinStr_head_clean (c : Char) (parts : List Str) (hne : parts ≠ [])
    (h : ∀ p ∈ parts, p ≠ [] ∧ wsChar (p.headD ' ') = false) :
    wsChar ((joinStr [c] parts).headD ' ') = false := by
  obtain ⟨x, xs, rfl⟩ := List.exists_cons_of_ne_nil hne
  obtain ⟨h0, hh⟩ := h x (List.mem_cons_self _ _)
  rw [joinStr_headD c x xs h0 ' ']
  exact hh

/-- A join of parts with non-whitespace last characters ends with a
non-whitespace character. -/
theorem joinStr_last_clean (c : Char) (parts : List Str) (hne : parts ≠ [])
    (h : ∀ p ∈ parts, p ≠ [] ∧ wsChar (p.reverse.headD ' ') = false) :
    wsChar ((joinStr [c] parts).reverse.headD ' ') = false := by
  obtain ⟨h0, hlast⟩ := h _ (List.getLast_mem hne)
  have hjl := joinStr_last_headD c ' ' parts.dropLast (parts.getLast hne) h0
  rw [List.dropLast_append_getLast hne] at hjl
  rw [hjl]
  exact hlast

/-- A comma-join of clean cells is a nonempty line with non-whitespace
ends and no line-break characters. -/
theorem cleanLine_of_cells (vs : List Str) (hne : vs ≠ [])
    (h : ∀ v ∈ vs, cleanCell v = true) :
    joinStr [','] vs ≠ [] ∧ wsChar ((joinStr [','] vs).headD ' ') = false ∧
      wsChar ((joinStr [','] vs).reverse.headD ' ') = false ∧
      '\n' ∉ joinStr [','] vs ∧ '\r' ∉ joinStr [','] vs := by
  refine ⟨joinStr_ne_nil_clean ',' vs hne (fun v hv => (cleanCell_spec v (h v hv)).1),
    joinStr_head_clean ',' vs hne
      (fun v hv => ⟨(cleanCell_spec v (h v hv)).1, (cleanCell_spec v (h v hv)).2.1⟩),
    joinStr_last_clean ',' vs hne
      (fun v hv => ⟨(cleanCell_spec v (h v hv)).1, (cleanCell_spec v (h v hv)).2.2.1⟩),
    not_mem_joinStr '\n' ',' vs (by decide)
      (fun v hv => (cleanCell_spec v (h v hv)).2.2.2.2.1),
    not_mem_joinStr '\r' ',' vs (by decide)
      (fun v hv => (cleanCell_spec v (h v hv)).2.2.2.2.2)⟩

/-- C7 (amended): for any record set over a fixed duplicate-free
nonempty key list, in which every key and every value is a clean cell
(nonempty, no leading or trailing whitespace, and free of commas and
line breaks), decoding the spec's encoding returns exactly the original
records. -/
theorem roundtrip_amended_C7 (ks : List Str) (vss : List (List Str))
    (hk0 : ks ≠ []) (hknd : ks.Nodup)
    (hkc : ∀ k ∈ ks, cleanCell k = true)
    (hvs : ∀ vs ∈ vss, vs.length = ks.length ∧ ∀ v ∈ vs, cleanCell v = true) :
    parseCSV (specEncodeRecords ks vss) = recordsOf ks vss := by
  have hnl : "\n".toList = ['\n'] := rfl
  have hcm : ",".toList = [','] := rfl
  rw [specEncodeRecords, hnl, hcm]
  have hvne : ∀ vs ∈ vss, vs ≠ [] := by
    intro vs hvss he
    have hlen := (hvs vs hvss).1
    rw [he] at hlen
    exact hk0 (List.length_eq_zero.mp hlen.symm)
  have hkids := cleanLine_of_cells ks hk0 hkc
  have hlines : ∀ l ∈ (joinStr [','] ks :: vss.map (joinStr [','])),
      l ≠ [] ∧ wsChar (l.headD ' ') = false ∧ wsChar (l.reverse.headD ' ') = false ∧
        '\n' ∉ l ∧ '\r' ∉ l := by
    intro l hl
    rcases List.mem_cons.mp hl with rfl | hl
    · exact hkids
    · obtain ⟨vs, hvss, rfl⟩ := List.mem_map.mp hl
      exact cleanLine_of_cells vs (hvne vs hvss) ((hvs vs hvss).2)
  have htrim :
      jsTrim (joinStr ['\n'] (joinStr [','] ks :: vss.map (joinStr [',']))) =
        joinStr ['\n'] (joinStr [','] ks :: vss.map (joinStr [','])) :=
    jsTrim_eq_self _
      (joinStr_head_clean '\n' _ (by simp)
        (fun l hl => ⟨(hlines l hl).1, (hlines l hl).2.1⟩))
      (joinStr_last_clean '\n' _ (by simp)
        (fun l hl => ⟨(hlines l hl).1, (hlines l hl).2.2.1⟩))
  have hsplit :
      splitLines (joinStr ['\n'] (joinStr [','] ks :: vss.map (joinStr [',']))) =
        joinStr [','] ks :: vss.map (joinStr [',']) := by
    rw [splitLines, splitChar_joinStr '\n' _ (by simp) (fun l hl => (hlines l hl).2.2.2.1)]
    rw [List.map_congr_left (g := fun l => l)
      (fun l hl => dropCR_of_not_mem l (hlines l hl).2.2.2.2)]
    simp
  simp only [parseCSV]
  rw [htrim, hsplit]
  simp only [List.isEmpty_cons, Bool.false_eq_true, if_false]
  rw [splitChar_joinStr ',' ks hk0 (fun k hk => (cleanCell_spec k (hkc k hk)).2.2.2.1)]
  rw [recordsOf, List.map_map]
  apply List.map_congr_left
  intro vs hvss
  simp only [Function.comp]
  rw [splitChar_joinStr ',' vs (hvne vs hvss)
    (fun v hv => (cleanCell_spec v ((hvs vs hvss).2 v hv)).2.2.2.1)]
  exact buildRow_zip ks vs hknd
    (fun k hk => jsTrim_eq_self k (cleanCell_spec k (hkc k hk)).2.1
      (cleanCell_spec k (hkc k hk)).2.2.1)
    (fun v hv => jsTrim_eq_self v (cleanCell_spec v ((hvs vs hvss).2 v hv)).2.1
      (cleanCell_spec v ((hvs vs hvss).2 v hv)).2.2.1)
    (hvs vs hvss).1

/-- C7 counterexample: the single record `{k: " a"}` has no comma in any
value, yet the decoder trims values, so decoding the encoding returns
`{k: "a"}` — a different mapping at key `k`. The claim as stated (only
"no commas embedded in values") is therefore false on the code. -/
theorem roundtrip_cex_C7 :
    ((" a".toList.all (fun c => !(c == ','))) = true) ∧
    parseCSV (specEncodeRecords ["k".toList] [[" a".toList]]) =
      [[("k".toList, "a".toList)]] ∧
    getF [("k".toList, "a".toList)] "k".toList ≠
      getF [("k".toList, " a".toList)] "k".toList := by decide

/-- Witness for the amended C7 at a concrete two-column record set. -/
theorem roundtrip_amended_C7_witness :
    (["id".toList, "name".toList] ≠ ([] : List Str)) ∧
    (["id".toList, "name".toList].Nodup) ∧
    (∀ k ∈ ["id".toList, "name".toList], cleanCell k = true) ∧
    (∀ vs ∈ [["1".toList, "ann".toList], ["2".toList, "bo".toList]],
      vs.length = ["id".toList, "name".toList].length ∧ ∀ v ∈ vs, cleanCell v = true) ∧
    parseCSV (specEncodeRecords ["id".toList, "name".toList]
        [["1".toList, "ann".toList], ["2".toList, "bo".toList]]) =
      recordsOf ["id".toList, "name".toList]
        [["1".toList, "ann".toList], ["2".toList, "bo".toList]] :=
  ⟨by decide, by decide, by decide, by decide,
    roundtrip_amended_C7 ["id".toList, "name".toList]
      [["1".toList, "ann".toList], ["2".toList, "bo".toList]]
      (by decide) (by decide) (by decide) (by decide)⟩
